import Mathlib

/-!
Verification of the ethsnarks field and JubJub curve modules
(`ethsnarks/field.py`, `ethsnarks/jubjub.py`).

Representation conventions of the shallow embedding:

* A Python `FQ` field element stores an arbitrary-precision non-negative
  integer `n` together with its modulus `m`: integer constructor inputs are
  reduced by `% m`, while an `FQ` constructor input has its stored value
  copied verbatim (see `FQ.init`).  We model the stored value as a `Nat` and
  the modulus as a `Nat`; operations that Python performs on
  possibly-negative intermediate integers (`-`, unary `-`) are computed in
  `Int` with `Int.emod`, which agrees with Python's `%` for a positive
  modulus.
* Curve points store `FQ` values whose modulus is always the curve's base
  field `SNARK_SCALAR_FIELD`; their coordinates are modelled as the raw
  stored `Nat` values, and each Python `FQ` operator application is mirrored
  by the corresponding modular operation at that fixed modulus.
* Python exceptions / failed `assert` statements are modelled with `Option`
  (`none` = the call raises).

The number-theoretic infrastructure (`mpow`, `certOk`, the Pratt/Lucas
certificates) is not part of the embedding; it only serves to prove that the
base field modulus is prime, which the correctness arguments need.
-/

/-- `SNARK_SCALAR_FIELD` from `field.py`. -/
def SNARK_SCALAR_FIELD : ℕ :=
  21888242871839275222246405745257275088548364400416034343698204186575808495617

/-! ### Fast modular exponentiation (proof infrastructure, not from the source)

`mpow a n fuel e` computes `a ^ e % n` by binary exponentiation with an
explicit structural fuel so that the kernel can evaluate it on big literals. -/

def mpow (a n : ℕ) : ℕ → ℕ → ℕ
  | 0, _ => 1 % n
  | fuel+1, e =>
    if e = 0 then 1 % n
    else
      let h := mpow a n fuel (e / 2)
      let h2 := h * h % n
      if e % 2 = 1 then h2 * (a % n) % n else h2

/-! ### Lucas (Pratt) primality certificates -/

/-- Checks a Lucas primality certificate for `n` with witness `a` and the
factorization of `n - 1` given as (prime, exponent) pairs. -/
def certOk (n a : ℕ) (fs : List (ℕ × ℕ)) : Bool :=
  (2 ≤ n : Bool) && (n - 1 < 2 ^ 300 : Bool) &&
  ((fs.map (fun qe => qe.1 ^ qe.2)).prod == n - 1) &&
  (mpow a n 300 (n - 1) == 1 % n) &&
  fs.all (fun qe => mpow a n 300 ((n - 1) / qe.1) != 1 % n)

/-! ### Embedding of `ethsnarks/field.py` -/

/-- Loop of `powmod` in `field.py`: iterates over the exponent bits
`k, k-1, ..., 0`; each iteration squares `f` and, when bit `k` of `b` is
set, multiplies by `a`.  (The variable `c` of the source is dead code — it
is never read — and is omitted.) -/
def powmodGo (a b n : ℕ) : ℕ → ℕ → ℕ
  | f, 0 =>
    let f2 := f * f % n
    if b.testBit 0 then f2 * a % n else f2
  | f, k+1 =>
    let f2 := f * f % n
    powmodGo a b n (if b.testBit (k+1) then f2 * a % n else f2) k

/-- `powmod(a, b, n)` from `field.py`.  The source sets
`k = int(math.log(b, 2))`: for `b = 0` this raises `ValueError` (modelled as
`none`); for `b ≥ 1` the float rounding can only overshoot the exact
`⌊log₂ b⌋` (extra leading iterations square `f = 1` and test high zero bits,
which does not change the output), so the loop is modelled with the exact
`Nat.log2 b`. -/
def powmod (a b n : ℕ) : Option ℕ :=
  if b = 0 then none
  else some (powmodGo a b n 1 (Nat.log2 b))

/-- Loop of `inv` in `field.py` (extended Euclid).  Python's
`lm, low, hm, high = nm, new, lm, low` with `nm = hm - lm*r` and
`new = high - low*r` where `r = high // low`; `low`/`high` stay
non-negative, `lm`/`hm` range over ℤ. -/
def inv_loop (lm hm : ℤ) (low high : ℕ) : ℤ :=
  if 1 < low then
    inv_loop (hm - lm * ((high / low : ℕ) : ℤ)) lm (high - low * (high / low)) low
  else lm
termination_by low
decreasing_by
  have h1 := Nat.mod_add_div high low
  have h2 := Nat.mod_lt high (show 0 < low by omega)
  omega

/-- `inv(a, n)` from `field.py`: extended-Euclid modular inverse, with the
documented quirk `inv(0, n) = 0`.  The final `lm % n` is Python `%` on a
possibly negative `lm` with positive `n`, i.e. `Int.emod`. -/
def inv (a n : ℕ) : ℕ :=
  if a = 0 then 0
  else (inv_loop 1 0 (a % n) n % (n : ℤ)).toNat

/-- The `FQ` class of `field.py`: stored value `n` (a non-negative integer)
and modulus `m`.  `n` is usually reduced below `m`, but see `FQ.init`. -/
structure FQ where
  n : ℕ
  m : ℕ
deriving DecidableEq

/-- The argument accepted by `FQ.__init__`: a plain (possibly negative)
integer, or another `FQ` instance. -/
inductive FQInit where
  | int (v : ℤ)
  | fq (f : FQ)

/-- `FQ.__init__`: when `n` is an `FQ` instance
(`isinstance(n, self.__class__)`), its stored value is copied WITHOUT
reduction (`self.n = n.n` — so a mismatched `field_modulus` argument can
leave `n ≥ m`); otherwise the integer is reduced, `self.n = n % self.m`. -/
def FQ.init : FQInit → ℕ → FQ
  | .fq f, m => ⟨f.n, m⟩
  | .int v, m => ⟨(v % (m : ℤ)).toNat, m⟩

/-- `FQ.__init__` on the plain-integer branch (the only way the source's
own code constructs new values, e.g. `FQ(-self.n, self.m)` in `__neg__`). -/
def FQ.make (v : ℤ) (m : ℕ) : FQ :=
  FQ.init (FQInit.int v) m

/-- `FQ._other_n`: the other operand's value, or an error (`none`,
`RuntimeError` in the source) when the moduli differ. -/
def FQ.other_n (self other : FQ) : Option ℕ :=
  if other.m = self.m then some other.n else none

/-- `FQ.__add__`. -/
def FQ.add (a b : FQ) : Option FQ :=
  (a.other_n b).map fun bn => ⟨(a.n + bn) % a.m, a.m⟩

/-- `FQ.__mul__`. -/
def FQ.mul (a b : FQ) : Option FQ :=
  (a.other_n b).map fun bn => ⟨a.n * bn % a.m, a.m⟩

/-- `FQ.__sub__` (computed over ℤ, as Python subtracts before reducing). -/
def FQ.sub (a b : FQ) : Option FQ :=
  (a.other_n b).map fun (bn : ℕ) => ⟨(((a.n : ℤ) - (bn : ℤ)) % (a.m : ℤ)).toNat, a.m⟩

/-- `FQ.__neg__`: `FQ(-self.n, self.m)`. -/
def FQ.neg (a : FQ) : FQ :=
  FQ.make (-(a.n : ℤ)) a.m

/-- `FQ.inv` (the method): wraps the module-level `inv`. -/
def FQ.inverse (a : FQ) : FQ :=
  ⟨inv a.n a.m, a.m⟩

/-- `FQ.exp` with an integer exponent: wraps `powmod`. -/
def FQ.exp (a : FQ) (e : ℕ) : Option FQ :=
  (powmod a.n e a.m).map fun r => ⟨r, a.m⟩

/-- `FQ.__div__`: `self.n * inv(on, self.m) % self.m`. -/
def FQ.div (a b : FQ) : Option FQ :=
  (a.other_n b).map fun bn => ⟨a.n * inv bn a.m % a.m, a.m⟩

/-! ### Embedding of `ethsnarks/jubjub.py`

In `jubjub.py` every `FQ` value carries the modulus `JUBJUB_Q`
(`= SNARK_SCALAR_FIELD`), so the `_other_n` modulus check never fires and
each `FQ` operator application reduces to the corresponding modular
operation at that fixed modulus (`qadd`, `qmul`, ...).  Point coordinates
are modelled as the raw stored values.  `int * FQ` / `int + FQ` dispatch to
`__rmul__`/`__radd__`, whose results coincide with the written order by
commutativity of the underlying integer operations. -/

abbrev JUBJUB_Q : ℕ := SNARK_SCALAR_FIELD

def JUBJUB_ORDER : ℕ :=
  21888242871839275222246405745257275088614511777268538073601725287587578984328

def JUBJUB_C : ℕ := 8

def JUBJUB_L : ℕ := JUBJUB_ORDER / JUBJUB_C

def JUBJUB_A : ℕ := 168700

def JUBJUB_D : ℕ := 168696

/-- `FQ.__add__` at modulus `JUBJUB_Q`. -/
def qadd (a b : ℕ) : ℕ := (a + b) % JUBJUB_Q

/-- `FQ.__mul__` at modulus `JUBJUB_Q`. -/
def qmul (a b : ℕ) : ℕ := a * b % JUBJUB_Q

/-- `FQ.__sub__` at modulus `JUBJUB_Q`. -/
def qsub (a b : ℕ) : ℕ := (((a : ℤ) - (b : ℤ)) % (JUBJUB_Q : ℤ)).toNat

/-- `FQ.__neg__` at modulus `JUBJUB_Q`. -/
def qneg (a : ℕ) : ℕ := ((-(a : ℤ)) % (JUBJUB_Q : ℤ)).toNat

/-- `FQ.inv` at modulus `JUBJUB_Q`. -/
def qinv (a : ℕ) : ℕ := inv a JUBJUB_Q

/-- `FQ.__div__` at modulus `JUBJUB_Q`. -/
def qdiv (a b : ℕ) : ℕ := a * inv b JUBJUB_Q % JUBJUB_Q

/-- The base field as a type (proof infrastructure: the bridging lemmas
relate the modular operations above to arithmetic in `ZMod JUBJUB_Q`). -/
abbrev Zq : Type := ZMod JUBJUB_Q

/-- Affine point (class `Point`): coordinates are `FQ` values mod `JUBJUB_Q`. -/
structure Point where
  x : ℕ
  y : ℕ
deriving DecidableEq

/-- Projective point (class `ProjPoint`). -/
structure ProjPoint where
  x : ℕ
  y : ℕ
  z : ℕ
deriving DecidableEq

/-- Extended twisted Edwards point (class `EtecPoint`). -/
structure EtecPoint where
  x : ℕ
  y : ℕ
  t : ℕ
  z : ℕ
deriving DecidableEq

/-- `Point.infinity()`: `(FQ(0), FQ(1))`. -/
def Point.infinity : Point := ⟨0, 1⟩

/-- `Point.neg`. -/
def Point.neg (p : Point) : Point := ⟨qneg p.x, p.y⟩

/-- `Point.valid`: `(JUBJUB_A * xsq) + ysq == (1 + JUBJUB_D * xsq * ysq)`. -/
def Point.valid (p : Point) : Bool :=
  qadd (qmul JUBJUB_A (qmul p.x p.x)) (qmul p.y p.y)
    == qadd 1 (qmul (qmul JUBJUB_D (qmul p.x p.x)) (qmul p.y p.y))

/-- `Point.add`: the all-zero-tuple special case, then the unified affine
formula. -/
def Point.add (self other : Point) : Point :=
  if self.x = 0 ∧ self.y = 0 then other
  else
    { x := qdiv (qadd (qmul self.x other.y) (qmul self.y other.x))
          (qadd 1 (qmul (qmul (qmul (qmul JUBJUB_D self.x) other.x) self.y) other.y)),
      y := qdiv (qsub (qmul self.y other.y) (qmul (qmul JUBJUB_A self.x) other.x))
          (qsub 1 (qmul (qmul (qmul (qmul JUBJUB_D self.x) other.x) self.y) other.y)) }

/-- `Point.as_proj`. -/
def Point.as_proj (p : Point) : ProjPoint := ⟨p.x, p.y, 1⟩

/-- `Point.as_etec`: `(x, y, x*y, 1)`. -/
def Point.as_etec (p : Point) : EtecPoint := ⟨p.x, p.y, qmul p.x p.y, 1⟩

/-- `Point.as_point`. -/
def Point.as_point (p : Point) : Point := p

/-- `ProjPoint.infinity()`: `(FQ(0), FQ(1), FQ(1))`. -/
def ProjPoint.infinity : ProjPoint := ⟨0, 1, 1⟩

/-- `ProjPoint.as_point`: `assert self.z != 0` (`none` on failure), then
multiply `x` and `y` by `self.z.inv()`. -/
def ProjPoint.as_point (p : ProjPoint) : Option Point :=
  if p.z = 0 then none
  else some ⟨qmul p.x (qinv p.z), qmul p.y (qinv p.z)⟩

/-- `ProjPoint.valid`: `self.as_point().valid()`. -/
def ProjPoint.valid (p : ProjPoint) : Option Bool :=
  p.as_point.map Point.valid

/-- `ProjPoint.neg`. -/
def ProjPoint.neg (p : ProjPoint) : ProjPoint := ⟨qneg p.x, p.y, p.z⟩

/-- `ProjPoint.rescale`. -/
def ProjPoint.rescale (p : ProjPoint) : ProjPoint :=
  ⟨qdiv p.x p.z, qdiv p.y p.z, 1⟩

/-- `ProjPoint.as_etec`: `(X, Y, X*Y, Z)`. -/
def ProjPoint.as_etec (p : ProjPoint) : EtecPoint := ⟨p.x, p.y, qmul p.x p.y, p.z⟩

/-- `ProjPoint.add` (add-2008-bbjlp), with the identity short-circuit. -/
def ProjPoint.add (self other : ProjPoint) : ProjPoint :=
  if self = ProjPoint.infinity then other
  else
    let a := qmul self.z other.z
    let b := qmul a a
    let c := qmul self.x other.x
    let d := qmul self.y other.y
    let t0 := qmul c d
    let e := qmul JUBJUB_D t0
    let f := qsub b e
    let g := qadd b e
    let t1 := qadd self.x self.y
    let t2 := qadd other.x other.y
    let t3 := qmul t1 t2
    let t4 := qsub t3 c
    let t5 := qsub t4 d
    let t6 := qmul f t5
    let x3 := qmul a t6
    let t7 := qmul JUBJUB_A c
    let t8 := qsub d t7
    let t9 := qmul g t8
    let y3 := qmul a t9
    let z3 := qmul f g
    ⟨x3, y3, z3⟩

/-- `ProjPoint.double` (dbl-2008-bbjlp), with the identity short-circuit. -/
def ProjPoint.double (self : ProjPoint) : ProjPoint :=
  if self = ProjPoint.infinity then ProjPoint.infinity
  else
    let t0 := qadd self.x self.y
    let b := qmul t0 t0
    let c := qmul self.x self.x
    let d := qmul self.y self.y
    let e := qmul JUBJUB_A c
    let f := qadd e d
    let h := qmul self.z self.z
    let t1 := qmul 2 h
    let j := qsub f t1
    let t2 := qsub b c
    let t3 := qsub t2 d
    let x3 := qmul t3 j
    let t4 := qsub e d
    let y3 := qmul f t4
    let z3 := qmul f j
    ⟨x3, y3, z3⟩

/-- `EtecPoint.infinity()`: `(FQ(0), FQ(1), FQ(0), FQ(1))`. -/
def EtecPoint.infinity : EtecPoint := ⟨0, 1, 0, 1⟩

/-- `EtecPoint.as_point`: `(X/Z, Y/Z)` via `self.z.inv()` — note: no check
that `z ≠ 0`. -/
def EtecPoint.as_point (p : EtecPoint) : Point :=
  ⟨qmul p.x (qinv p.z), qmul p.y (qinv p.z)⟩

/-- `EtecPoint.as_proj`: drops `T`. -/
def EtecPoint.as_proj (p : EtecPoint) : ProjPoint := ⟨p.x, p.y, p.z⟩

/-- `EtecPoint.neg`. -/
def EtecPoint.neg (p : EtecPoint) : EtecPoint := ⟨qneg p.x, p.y, qneg p.t, p.z⟩

/-- `EtecPoint.valid`: `self.as_point().valid()`. -/
def EtecPoint.valid (p : EtecPoint) : Bool :=
  p.as_point.valid

/-- `EtecPoint.double` (dbl-2008-hwcd), with the identity short-circuit. -/
def EtecPoint.double (self : EtecPoint) : EtecPoint :=
  if self = EtecPoint.infinity then EtecPoint.infinity
  else
    let a := qmul self.x self.x
    let b := qmul self.y self.y
    let t0 := qmul self.z self.z
    let c := qmul t0 2
    let d := qmul JUBJUB_A a
    let t1 := qadd self.x self.y
    let t2 := qmul t1 t1
    let t3 := qsub t2 a
    let e := qsub t3 b
    let g := qadd d b
    let f := qsub g c
    let h := qsub d b
    ⟨qmul e f, qmul g h, qmul e h, qmul f g⟩

/-- `EtecPoint.add` (unified addition in ε^e): identity short-circuit, then
the two `assert ... != 0` statements on the `z` coordinates (`none` on
failure), then the unified formula. -/
def EtecPoint.add (self other : EtecPoint) : Option EtecPoint :=
  if self = EtecPoint.infinity then some other
  else if self.z = 0 ∨ other.z = 0 then none
  else
    let x1x2 := qmul self.x other.x
    let y1y2 := qmul self.y other.y
    let dt1t2 := qmul (qmul JUBJUB_D self.t) other.t
    let z1z2 := qmul self.z other.z
    let e := qsub (qsub (qmul (qadd self.x self.y) (qadd other.x other.y)) x1x2) y1y2
    let f := qsub z1z2 dt1t2
    let g := qadd z1z2 dt1t2
    let h := qsub y1y2 (qmul JUBJUB_A x1x2)
    some ⟨qmul e f, qmul g h, qmul e h, qmul f g⟩

/-- Scalar argument of `AbstractCurveOps.mult`: a plain Python integer or an
`FQ` element. -/
inductive CurveScalar where
  | int (v : ℤ)
  | fq (v : FQ)

/-- Outcome of a `mult` call: a raised `ValueError` (`error`), loop fuel
exhaustion (`fuelOut` — the `while` loop has not terminated within `fuel`
iterations), or a result. -/
inductive MultResult (α : Type) where
  | error
  | fuelOut
  | ok (pt : α)
deriving DecidableEq

/-- The `while scalar != 0` loop of `AbstractCurveOps.mult`, parametric in
the representation's `add`/`double` (the method is defined once on the
abstract base class).  One fuel unit per iteration; Python's
`scalar // 2` on a (possibly negative) int is floor division, i.e.
`Int.ediv` for the positive divisor 2, and `scalar & 1 != 0` is
`scalar % 2 ≠ 0` with Euclidean `%`. -/
def multLoop {α : Type} (addf : α → α → α) (dblf : α → α) :
    ℕ → ℤ → α → α → Option α
  | 0, scalar, _, acc => if scalar = 0 then some acc else none
  | fuel+1, scalar, ppt, acc =>
    if scalar = 0 then some acc
    else
      multLoop addf dblf fuel (scalar / 2) (dblf ppt)
        (if scalar % 2 ≠ 0 then addf acc ppt else acc)

/-- `AbstractCurveOps.mult`: scalar-domain handling, then the double-and-add
loop starting from `a = self.infinity()`, `p = self`. -/
def mult {α : Type} (addf : α → α → α) (dblf : α → α) (inf0 : α) (self : α)
    (fuel : ℕ) (scalar : CurveScalar) : MultResult α :=
  match scalar with
  | .int v =>
    match multLoop addf dblf fuel v self inf0 with
    | some r => .ok r
    | none => .fuelOut
  | .fq f =>
    if f.m = SNARK_SCALAR_FIELD ∨ f.m = JUBJUB_ORDER ∨ f.m = JUBJUB_L then
      match multLoop addf dblf fuel (f.n : ℤ) self inf0 with
      | some r => .ok r
      | none => .fuelOut
    else .error

/-- The affine test point `A` of `test/test_jubjub.py` (`_point_a`). -/
def point_a : Point :=
  ⟨0x274dbce8d15179969bc0d49fa725bddf9de555e0ba6a693c6adb52fc9ee7a82c,
   0x5ce98c61b05f47fe2eae9a542bd99f6b2e78246231640b54595febfd51eb853⟩

/-- The expected double of `A` (`_point_a_double` in `test/test_jubjub.py`). -/
def point_a_double : Point :=
  ⟨6890855772600357754907169075114257697580319025794532037257385534741338397365,
   4338620300185947561074059802482547481416142213883829469920100239455078257889⟩

/-- Modelled from the spec (for the refinement half of the affine-addition
claim): the generic unified affine addition formula
`u3 = (u1*v2 + v1*u2)/(1 + D*u1*u2*v1*v2)`,
`v3 = (v1*v2 - A*u1*u2)/(1 - D*u1*u2*v1*v2)`, with no special case. -/
def affineAddFormula (self other : Point) : Point :=
  { x := qdiv (qadd (qmul self.x other.y) (qmul self.y other.x))
        (qadd 1 (qmul (qmul (qmul (qmul JUBJUB_D self.x) other.x) self.y) other.y)),
    y := qdiv (qsub (qmul self.y other.y) (qmul (qmul JUBJUB_A self.x) other.x))
        (qsub 1 (qmul (qmul (qmul (qmul JUBJUB_D self.x) other.x) self.y) other.y)) }

/-! ### Proof infrastructure theorems -/

theorem mpow_lt (a n : ℕ) (hn : 1 < n) : ∀ fuel e, mpow a n fuel e < n := by
  intro fuel
  induction fuel with
  | zero => intro e; simpa [mpow] using Nat.mod_lt _ (by omega)
  | succ fuel ih =>
    intro e
    by_cases he : e = 0
    · simpa [mpow, he] using Nat.mod_lt _ (by omega)
    · simp only [mpow, he, if_false]
      by_cases hodd : e % 2 = 1 <;>
        simp [hodd] <;> exact Nat.mod_lt _ (by omega)

theorem mpow_cast (a n : ℕ) :
    ∀ fuel e, e < 2 ^ fuel → ((mpow a n fuel e : ℕ) : ZMod n) = (a : ZMod n) ^ e := by
  intro fuel
  induction fuel with
  | zero =>
    intro e he
    interval_cases e
    simp [mpow, ZMod.natCast_mod]
  | succ fuel ih =>
    intro e he
    by_cases he0 : e = 0
    · simp [mpow, he0, ZMod.natCast_mod]
    · have hdiv : e / 2 < 2 ^ fuel := by
        have : e < 2 ^ fuel * 2 := by
          simpa [Nat.pow_succ] using he
        exact Nat.div_lt_of_lt_mul (by omega)
      have hrec := ih (e / 2) hdiv
      have hsplit : e / 2 * 2 + e % 2 = e := by omega
      have hpow : (a : ZMod n) ^ e = ((a : ZMod n) ^ (e / 2)) ^ 2 * (a : ZMod n) ^ (e % 2) := by
        rw [← pow_mul, ← pow_add, hsplit]
      by_cases hodd : e % 2 = 1
      · simp only [mpow, he0, if_false, hodd, if_true]
        push_cast [ZMod.natCast_mod]
        rw [hrec, hpow, hodd]
        ring
      · have heven : e % 2 = 0 := by omega
        simp only [mpow, he0, if_false, hodd, if_false]
        push_cast [ZMod.natCast_mod]
        rw [hrec, hpow, heven]
        ring

theorem prime_of_cert (n a : ℕ) (fs : List (ℕ × ℕ))
    (hf : ∀ qe ∈ fs, Nat.Prime qe.1) (h : certOk n a fs = true) : Nat.Prime n := by
  simp only [certOk, Bool.and_eq_true, decide_eq_true_eq, beq_iff_eq, List.all_eq_true,
    bne_iff_ne, ne_eq] at h
  obtain ⟨⟨⟨⟨hn2, hsmall⟩, hprod⟩, hpow⟩, hdiv⟩ := h
  have hn1 : 1 < n := hn2
  haveI : Fact (1 < n) := ⟨hn1⟩
  have hone : (1 : ℕ) % n = 1 := Nat.mod_eq_of_lt hn1
  apply lucas_primality n (a : ZMod n)
  · have := mpow_cast a n 300 (n - 1) hsmall
    rw [hpow, hone] at this
    simpa using this.symm
  · intro q hq hqdvd
    have hqlist : ∃ qe ∈ fs, q = qe.1 := by
      have hdvdprod : q ∣ (fs.map (fun qe => qe.1 ^ qe.2)).prod := by
        rw [hprod]; exact hqdvd
      rcases (Nat.Prime.prime hq).dvd_prod_iff.mp hdvdprod with ⟨x, hxmem, hxdvd⟩
      rcases List.mem_map.mp hxmem with ⟨qe, hqe, rfl⟩
      exact ⟨qe, hqe, ((Nat.prime_dvd_prime_iff_eq hq (hf qe hqe)).mp
        (hq.dvd_of_dvd_pow hxdvd))⟩
    rcases hqlist with ⟨qe, hqe, rfl⟩
    intro hcontra
    have hlt : (n - 1) / qe.1 < 2 ^ 300 :=
      lt_of_le_of_lt (Nat.div_le_self _ _) hsmall
    have hcast := mpow_cast a n 300 ((n - 1) / qe.1) hlt
    rw [hcontra] at hcast
    have hval : mpow a n 300 ((n - 1) / qe.1) = 1 := by
      have h1 := congrArg ZMod.val hcast
      rwa [ZMod.val_natCast_of_lt (mpow_lt a n hn1 _ _), ZMod.val_one] at h1
    exact hdiv qe hqe (by rw [hval, hone])

set_option exponentiation.threshold 310
set_option maxRecDepth 8000

theorem prime_237073 : Nat.Prime 237073 := by
  apply prime_of_cert 237073 15 [(2,4),(3,1),(11,1),(449,1)]
  · intro qe hqe
    simp only [List.mem_cons, List.not_mem_nil, or_false] at hqe
    rcases hqe with rfl | rfl | rfl | rfl <;> norm_num
  · decide

theorem prime_405928799 : Nat.Prime 405928799 := by
  apply prime_of_cert 405928799 22 [(2,1),(11,1),(3691,1),(4999,1)]
  · intro qe hqe
    simp only [List.mem_cons, List.not_mem_nil, or_false] at hqe
    rcases hqe with rfl | rfl | rfl | rfl <;> norm_num
  · decide

theorem prime_12048837557 : Nat.Prime 12048837557 := by
  apply prime_of_cert 12048837557 2 [(2,2),(7,2),(661,1),(93001,1)]
  · intro qe hqe
    simp only [List.mem_cons, List.not_mem_nil, or_false] at hqe
    rcases hqe with rfl | rfl | rfl | rfl <;> norm_num
  · decide

theorem prime_5156902474397 : Nat.Prime 5156902474397 := by
  apply prime_of_cert 5156902474397 2 [(2,2),(107,1),(12048837557,1)]
  · intro qe hqe
    simp only [List.mem_cons, List.not_mem_nil, or_false] at hqe
    rcases hqe with rfl | rfl | rfl
    · norm_num
    · norm_num
    · exact prime_12048837557
  · decide

theorem prime_1670836401704629 : Nat.Prime 1670836401704629 := by
  apply prime_of_cert 1670836401704629 2 [(2,2),(3,4),(5156902474397,1)]
  · intro qe hqe
    simp only [List.mem_cons, List.not_mem_nil, or_false] at hqe
    rcases hqe with rfl | rfl | rfl
    · norm_num
    · norm_num
    · exact prime_5156902474397
  · decide

theorem prime_1593227 : Nat.Prime 1593227 := by
  apply prime_of_cert 1593227 2 [(2,1),(19,1),(41927,1)]
  · intro qe hqe
    simp only [List.mem_cons, List.not_mem_nil, or_false] at hqe
    rcases hqe with rfl | rfl | rfl <;> norm_num
  · decide

theorem prime_639533339 : Nat.Prime 639533339 := by
  apply prime_of_cert 639533339 2 [(2,1),(229,1),(853,1),(1637,1)]
  · intro qe hqe
    simp only [List.mem_cons, List.not_mem_nil, or_false] at hqe
    rcases hqe with rfl | rfl | rfl | rfl <;> norm_num
  · decide

theorem prime_65865678001877903 : Nat.Prime 65865678001877903 := by
  apply prime_of_cert 65865678001877903 5 [(2,1),(83,1),(379,1),(1637,1),(639533339,1)]
  · intro qe hqe
    simp only [List.mem_cons, List.not_mem_nil, or_false] at hqe
    rcases hqe with rfl | rfl | rfl | rfl | rfl
    · norm_num
    · norm_num
    · norm_num
    · norm_num
    · exact prime_639533339
  · decide

theorem prime_13818364434197438864469338081 : Nat.Prime 13818364434197438864469338081 := by
  apply prime_of_cert 13818364434197438864469338081 3
    [(2,5),(5,1),(823,1),(1593227,1),(65865678001877903,1)]
  · intro qe hqe
    simp only [List.mem_cons, List.not_mem_nil, or_false] at hqe
    rcases hqe with rfl | rfl | rfl | rfl | rfl
    · norm_num
    · norm_num
    · norm_num
    · exact prime_1593227
    · exact prime_65865678001877903
  · decide

/-- The base-field modulus of the embedded code is prime. -/
theorem SNARK_SCALAR_FIELD_prime : Nat.Prime SNARK_SCALAR_FIELD := by
  apply prime_of_cert SNARK_SCALAR_FIELD 5
    [(2,28),(3,2),(13,1),(29,1),(983,1),(11003,1),(237073,1),(405928799,1),
     (1670836401704629,1),(13818364434197438864469338081,1)]
  · intro qe hqe
    simp only [List.mem_cons, List.not_mem_nil, or_false] at hqe
    rcases hqe with rfl | rfl | rfl | rfl | rfl | rfl | rfl | rfl | rfl | rfl
    · norm_num
    · norm_num
    · norm_num
    · norm_num
    · norm_num
    · norm_num
    · exact prime_237073
    · exact prime_405928799
    · exact prime_1670836401704629
    · exact prime_13818364434197438864469338081
  · decide

/-! ### Correctness of the extended-Euclid `inv` -/

theorem inv_loop_spec (n c : ℕ) :
    ∀ low, ∀ (high : ℕ) (lm hm : ℤ), 0 < low → Nat.gcd low high = 1 →
      ((lm * c : ℤ) : ZMod n) = (low : ZMod n) →
      ((hm * c : ℤ) : ZMod n) = (high : ZMod n) →
      ((inv_loop lm hm low high * c : ℤ) : ZMod n) = 1 := by
  intro low
  induction low using Nat.strong_induction_on with
  | _ low ih =>
    intro high lm hm hpos hgcd hlm hhm
    rw [inv_loop]
    by_cases h1 : 1 < low
    · rw [if_pos h1]
      set r := high / low with hrdef
      have hma : high % low + low * r = high := by
        rw [hrdef]; exact Nat.mod_add_div high low
      have hle : low * r ≤ high := by omega
      have hmod : high - low * r = high % low := by omega
      have hmlt : high % low < low := Nat.mod_lt _ (by omega)
      have hne : high % low ≠ 0 := by
        intro h0
        have hdvd : low ∣ high := Nat.dvd_of_mod_eq_zero h0
        have := Nat.gcd_eq_left hdvd
        omega
      apply ih (high - low * r) (by omega) low
      · omega
      · rw [hmod, ← Nat.gcd_rec]
        exact hgcd
      · calc (((hm - lm * ((r : ℕ) : ℤ)) * c : ℤ) : ZMod n)
            = ((hm * c : ℤ) : ZMod n)
              - ((lm * c : ℤ) : ZMod n) * ((r : ℕ) : ZMod n) := by
              push_cast; ring
          _ = (high : ZMod n) - (low : ZMod n) * ((r : ℕ) : ZMod n) := by
              rw [hlm, hhm]
          _ = ((high - low * r : ℕ) : ZMod n) := by
              rw [Nat.cast_sub hle]; push_cast; ring
      · exact hlm
    · rw [if_neg h1]
      have hlow1 : low = 1 := by omega
      rw [hlow1] at hlm
      simpa using hlm

theorem inv_spec (a n : ℕ) (hn : 1 < n) (hgcd : Nat.gcd (a % n) n = 1) :
    inv a n * a % n = 1 ∧ inv a n < n := by
  haveI : NeZero n := ⟨by omega⟩
  have hnz : ((n : ℕ) : ℤ) ≠ 0 := by exact_mod_cast (by omega : n ≠ 0)
  have ha0 : a % n ≠ 0 := by
    intro h
    rw [h, Nat.gcd_zero_left] at hgcd
    omega
  have ha : a ≠ 0 := fun h => ha0 (by simp [h])
  have hnonneg : (0 : ℤ) ≤ inv_loop 1 0 (a % n) n % (n : ℤ) :=
    Int.emod_nonneg _ hnz
  have hltz : inv_loop 1 0 (a % n) n % (n : ℤ) < (n : ℤ) :=
    Int.emod_lt_of_pos _ (by exact_mod_cast (by omega : 0 < n))
  have hbound : inv a n < n := by
    rw [inv, if_neg ha]
    omega
  refine ⟨?_, hbound⟩
  have hspec := inv_loop_spec n a (a % n) n 1 0 (Nat.pos_of_ne_zero ha0) hgcd
    (by simp [ZMod.natCast_mod]) (by simp [ZMod.natCast_self])
  have hcast : ((inv a n * a : ℕ) : ZMod n) = 1 := by
    rw [inv, if_neg ha]
    push_cast
    rw [show (((inv_loop 1 0 (a % n) n % (n : ℤ)).toNat : ℕ) : ZMod n)
        = ((inv_loop 1 0 (a % n) n % (n : ℤ) : ℤ) : ZMod n) by
      rw [← Int.cast_natCast, Int.toNat_of_nonneg hnonneg]]
    rw [ZMod.intCast_mod]
    calc ((inv_loop 1 0 (a % n) n : ℤ) : ZMod n) * (a : ZMod n)
        = ((inv_loop 1 0 (a % n) n * a : ℤ) : ZMod n) := by push_cast; ring
      _ = 1 := hspec
  have hval := congrArg ZMod.val hcast
  haveI : Fact (1 < n) := ⟨hn⟩
  rwa [ZMod.val_natCast, ZMod.val_one] at hval

theorem one_lt_Q : 1 < JUBJUB_Q := by
  norm_num [JUBJUB_Q, SNARK_SCALAR_FIELD]

theorem qinv_mul (a : ℕ) (ha : a % JUBJUB_Q ≠ 0) :
    inv a JUBJUB_Q * a % JUBJUB_Q = 1 ∧ inv a JUBJUB_Q < JUBJUB_Q := by
  apply inv_spec a JUBJUB_Q one_lt_Q
  have hp := SNARK_SCALAR_FIELD_prime
  have hnd : ¬ (JUBJUB_Q ∣ a % JUBJUB_Q) := by
    intro hdvd
    exact ha (Nat.eq_zero_of_dvd_of_lt hdvd
      (Nat.mod_lt _ (by have := one_lt_Q; omega)))
  exact Nat.coprime_comm.mp (hp.coprime_iff_not_dvd.mpr hnd)

/-! ### Bridging the modular operations to `ZMod JUBJUB_Q` -/

theorem Q_pos : 0 < JUBJUB_Q := by have := one_lt_Q; omega

theorem qadd_lt (a b : ℕ) : qadd a b < JUBJUB_Q := Nat.mod_lt _ Q_pos

theorem qmul_lt (a b : ℕ) : qmul a b < JUBJUB_Q := Nat.mod_lt _ Q_pos

theorem qdiv_lt (a b : ℕ) : qdiv a b < JUBJUB_Q := Nat.mod_lt _ Q_pos

theorem Qz_ne : ((JUBJUB_Q : ℕ) : ℤ) ≠ 0 := by
  have := Q_pos; exact_mod_cast (by omega : JUBJUB_Q ≠ 0)

theorem Qz_pos : (0 : ℤ) < ((JUBJUB_Q : ℕ) : ℤ) := by
  exact_mod_cast Q_pos

theorem qsub_lt (a b : ℕ) : qsub a b < JUBJUB_Q := by
  unfold qsub
  have h1 := Int.emod_nonneg ((a : ℤ) - (b : ℤ)) Qz_ne
  have h2 := Int.emod_lt_of_pos ((a : ℤ) - (b : ℤ)) Qz_pos
  omega

theorem qneg_lt (a : ℕ) : qneg a < JUBJUB_Q := by
  unfold qneg
  have h1 := Int.emod_nonneg (-(a : ℤ)) Qz_ne
  have h2 := Int.emod_lt_of_pos (-(a : ℤ)) Qz_pos
  omega

theorem toNat_emod_cast (v : ℤ) :
    (((v % ((JUBJUB_Q : ℕ) : ℤ)).toNat : ℕ) : Zq) = ((v : ℤ) : Zq) := by
  have h1 := Int.emod_nonneg v Qz_ne
  rw [← Int.cast_natCast, Int.toNat_of_nonneg h1, ZMod.intCast_mod]

theorem qadd_cast (a b : ℕ) : ((qadd a b : ℕ) : Zq) = (a : Zq) + (b : Zq) := by
  unfold qadd
  rw [ZMod.natCast_mod]
  push_cast
  ring

theorem qmul_cast (a b : ℕ) : ((qmul a b : ℕ) : Zq) = (a : Zq) * (b : Zq) := by
  unfold qmul
  rw [ZMod.natCast_mod]
  push_cast
  ring

theorem qsub_cast (a b : ℕ) : ((qsub a b : ℕ) : Zq) = (a : Zq) - (b : Zq) := by
  unfold qsub
  rw [toNat_emod_cast]
  push_cast
  ring

theorem qneg_cast (a : ℕ) : ((qneg a : ℕ) : Zq) = -(a : Zq) := by
  unfold qneg
  rw [toNat_emod_cast]
  push_cast
  ring

theorem q_inj (a b : ℕ) (ha : a < JUBJUB_Q) (hb : b < JUBJUB_Q)
    (h : (a : Zq) = (b : Zq)) : a = b := by
  have := congrArg ZMod.val h
  rwa [ZMod.val_natCast_of_lt ha, ZMod.val_natCast_of_lt hb] at this

theorem qcast_ne_zero (a : ℕ) (ha : a % JUBJUB_Q ≠ 0) : (a : Zq) ≠ 0 := by
  rw [Ne, ZMod.natCast_zmod_eq_zero_iff_dvd]
  intro hd
  exact ha ((Nat.mod_eq_zero_of_dvd hd))

theorem qinv_cast (a : ℕ) (ha : a % JUBJUB_Q ≠ 0) :
    ((qinv a : ℕ) : Zq) = (a : Zq)⁻¹ := by
  haveI : Fact (Nat.Prime JUBJUB_Q) := ⟨SNARK_SCALAR_FIELD_prime⟩
  obtain ⟨hmul, hlt⟩ := qinv_mul a ha
  have hcast : ((inv a JUBJUB_Q * a : ℕ) : Zq) = 1 := by
    rw [← ZMod.natCast_mod, hmul, Nat.cast_one]
  push_cast at hcast
  exact eq_inv_of_mul_eq_one_left hcast

theorem qinv_unique (a b : ℕ) (ha : a % JUBJUB_Q ≠ 0) (hb : b < JUBJUB_Q)
    (hab : b * a % JUBJUB_Q = 1) : qinv a = b := by
  haveI : Fact (Nat.Prime JUBJUB_Q) := ⟨SNARK_SCALAR_FIELD_prime⟩
  have h1 : ((b * a : ℕ) : Zq) = 1 := by
    rw [← ZMod.natCast_mod, hab, Nat.cast_one]
  push_cast at h1
  have h2 : (b : Zq) = (a : Zq)⁻¹ := eq_inv_of_mul_eq_one_left h1
  exact q_inj _ _ (qinv_mul a ha).2 hb (by rw [qinv_cast a ha, h2])

theorem qinv_zero : qinv 0 = 0 := by
  simp [qinv, inv]

theorem qinv_lt (a : ℕ) : qinv a < JUBJUB_Q := by
  by_cases ha : a = 0
  · rw [ha, qinv_zero]; exact Q_pos
  · unfold qinv inv
    rw [if_neg ha]
    have h1 := Int.emod_nonneg (inv_loop 1 0 (a % JUBJUB_Q) JUBJUB_Q) Qz_ne
    have h2 := Int.emod_lt_of_pos (inv_loop 1 0 (a % JUBJUB_Q) JUBJUB_Q) Qz_pos
    omega

theorem qdiv_cast (a b : ℕ) (hb : b % JUBJUB_Q ≠ 0) :
    ((qdiv a b : ℕ) : Zq) = (a : Zq) * (b : Zq)⁻¹ := by
  unfold qdiv
  rw [ZMod.natCast_mod]
  push_cast
  rw [show ((inv b JUBJUB_Q : ℕ) : Zq) = ((qinv b : ℕ) : Zq) from rfl, qinv_cast b hb]

theorem qmul_zero_right (a : ℕ) : qmul a 0 = 0 := by
  simp [qmul]

/-- A point whose `z` is zero projects (through the `inv 0 = 0` quirk) to the
affine all-zero pair. -/
theorem etec_as_point_z_zero (p : EtecPoint) (hz : p.z = 0) :
    p.as_point = ⟨0, 0⟩ := by
  simp [EtecPoint.as_point, hz, qinv_zero, qmul_zero_right]

theorem point_valid_iff (pt : Point) :
    pt.valid = true ↔
      (JUBJUB_A : Zq) * ((pt.x : Zq) * pt.x) + (pt.y : Zq) * pt.y
        = 1 + (JUBJUB_D : Zq) * ((pt.x : Zq) * pt.x) * ((pt.y : Zq) * pt.y) := by
  unfold Point.valid
  rw [beq_iff_eq]
  constructor
  · intro h
    have := congrArg (fun v : ℕ => (v : Zq)) h
    simpa [qadd_cast, qmul_cast] using this
  · intro h
    apply q_inj _ _ (qadd_lt _ _) (qadd_lt _ _)
    simpa [qadd_cast, qmul_cast] using h

/-- A code-`valid` extended point has `z ≠ 0`. -/
theorem etec_valid_z_ne_zero (p : EtecPoint) (hv : p.valid = true) : p.z ≠ 0 := by
  intro hz
  rw [EtecPoint.valid, etec_as_point_z_zero p hz, point_valid_iff] at hv
  haveI : Fact (Nat.Prime JUBJUB_Q) := ⟨SNARK_SCALAR_FIELD_prime⟩
  simp at hv

/-- A code-`valid` projective point has `z ≠ 0`. -/
theorem proj_valid_z_ne_zero (p : ProjPoint) (hv : p.valid = some true) : p.z ≠ 0 := by
  intro hz
  rw [ProjPoint.valid, ProjPoint.as_point, if_pos hz] at hv
  simp at hv

theorem qinv_one : qinv 1 = 1 :=
  qinv_unique 1 1 (by rw [Nat.mod_eq_of_lt one_lt_Q]; omega) one_lt_Q
    (by rw [Nat.mul_one, Nat.mod_eq_of_lt one_lt_Q])

/-- Two extended points whose (x, y, z) coordinates differ by a nonzero
field scaling project to the same affine point (including the degenerate
`z = 0` case, where both give `(0, 0)` through the `inv 0 = 0` quirk). -/
theorem etec_as_point_scale (a b : EtecPoint) (lam : Zq) (hlam : lam ≠ 0)
    (haz : a.z < JUBJUB_Q) (hbz : b.z < JUBJUB_Q)
    (hx : (b.x : Zq) = lam * (a.x : Zq)) (hy : (b.y : Zq) = lam * (a.y : Zq))
    (hz : (b.z : Zq) = lam * (a.z : Zq)) :
    b.as_point = a.as_point := by
  haveI : Fact (Nat.Prime JUBJUB_Q) := ⟨SNARK_SCALAR_FIELD_prime⟩
  by_cases h0 : a.z = 0
  · have hb0 : b.z = 0 := by
      apply q_inj _ _ hbz Q_pos
      rw [hz, h0]
      simp
    rw [etec_as_point_z_zero a h0, etec_as_point_z_zero b hb0]
  · have ha' : a.z % JUBJUB_Q ≠ 0 := by rwa [Nat.mod_eq_of_lt haz]
    have hazq : (a.z : Zq) ≠ 0 := qcast_ne_zero _ ha'
    have hbzq : (b.z : Zq) ≠ 0 := by rw [hz]; exact mul_ne_zero hlam hazq
    have hb0 : b.z ≠ 0 := by
      intro h
      rw [h] at hbzq
      simp at hbzq
    have hb' : b.z % JUBJUB_Q ≠ 0 := by rwa [Nat.mod_eq_of_lt hbz]
    unfold EtecPoint.as_point
    rw [Point.mk.injEq]
    constructor
    · apply q_inj _ _ (qmul_lt _ _) (qmul_lt _ _)
      rw [qmul_cast, qmul_cast, qinv_cast _ hb', qinv_cast _ ha', hx, hz]
      calc lam * (a.x : Zq) * (lam * (a.z : Zq))⁻¹
          = (lam * lam⁻¹) * ((a.x : Zq) * (a.z : Zq)⁻¹) := by
            rw [mul_inv_rev]; ring
        _ = (a.x : Zq) * (a.z : Zq)⁻¹ := by rw [mul_inv_cancel₀ hlam, one_mul]
    · apply q_inj _ _ (qmul_lt _ _) (qmul_lt _ _)
      rw [qmul_cast, qmul_cast, qinv_cast _ hb', qinv_cast _ ha', hy, hz]
      calc lam * (a.y : Zq) * (lam * (a.z : Zq))⁻¹
          = (lam * lam⁻¹) * ((a.y : Zq) * (a.z : Zq)⁻¹) := by
            rw [mul_inv_rev]; ring
        _ = (a.y : Zq) * (a.z : Zq)⁻¹ := by rw [mul_inv_cancel₀ hlam, one_mul]

/-- Projective analogue of `etec_as_point_scale` (when `z = 0` on one side,
both conversions fail and the `Option` results agree as `none`). -/
theorem proj_as_point_scale (a b : ProjPoint) (lam : Zq) (hlam : lam ≠ 0)
    (haz : a.z < JUBJUB_Q) (hbz : b.z < JUBJUB_Q)
    (hx : (b.x : Zq) = lam * (a.x : Zq)) (hy : (b.y : Zq) = lam * (a.y : Zq))
    (hz : (b.z : Zq) = lam * (a.z : Zq)) :
    b.as_point = a.as_point := by
  haveI : Fact (Nat.Prime JUBJUB_Q) := ⟨SNARK_SCALAR_FIELD_prime⟩
  by_cases h0 : a.z = 0
  · have hb0 : b.z = 0 := by
      apply q_inj _ _ hbz Q_pos
      rw [hz, h0]
      simp
    rw [ProjPoint.as_point, if_pos hb0, ProjPoint.as_point, if_pos h0]
  · have ha' : a.z % JUBJUB_Q ≠ 0 := by rwa [Nat.mod_eq_of_lt haz]
    have hazq : (a.z : Zq) ≠ 0 := qcast_ne_zero _ ha'
    have hbzq : (b.z : Zq) ≠ 0 := by rw [hz]; exact mul_ne_zero hlam hazq
    have hb0 : b.z ≠ 0 := by
      intro h
      rw [h] at hbzq
      simp at hbzq
    have hb' : b.z % JUBJUB_Q ≠ 0 := by rwa [Nat.mod_eq_of_lt hbz]
    unfold ProjPoint.as_point
    rw [if_neg hb0, if_neg h0, Option.some.injEq, Point.mk.injEq]
    constructor
    · apply q_inj _ _ (qmul_lt _ _) (qmul_lt _ _)
      rw [qmul_cast, qmul_cast, qinv_cast _ hb', qinv_cast _ ha', hx, hz]
      calc lam * (a.x : Zq) * (lam * (a.z : Zq))⁻¹
          = (lam * lam⁻¹) * ((a.x : Zq) * (a.z : Zq)⁻¹) := by
            rw [mul_inv_rev]; ring
        _ = (a.x : Zq) * (a.z : Zq)⁻¹ := by rw [mul_inv_cancel₀ hlam, one_mul]
    · apply q_inj _ _ (qmul_lt _ _) (qmul_lt _ _)
      rw [qmul_cast, qmul_cast, qinv_cast _ hb', qinv_cast _ ha', hy, hz]
      calc lam * (a.y : Zq) * (lam * (a.z : Zq))⁻¹
          = (lam * lam⁻¹) * ((a.y : Zq) * (a.z : Zq)⁻¹) := by
            rw [mul_inv_rev]; ring
        _ = (a.y : Zq) * (a.z : Zq)⁻¹ := by rw [mul_inv_cancel₀ hlam, one_mul]

/-- For a valid extended point with consistent `T` coordinate,
`add(self, self)` succeeds and lands on the same affine point as the
dedicated doubling formula (the raw tuples are componentwise negations). -/
theorem etec_double_eq_add_self (p : EtecPoint)
    (hz : p.z < JUBJUB_Q)
    (hv : p.valid = true) (htz : qmul p.t p.z = qmul p.x p.y) :
    ∃ q, p.add p = some q ∧ q.as_point = p.double.as_point := by
  haveI : Fact (Nat.Prime JUBJUB_Q) := ⟨SNARK_SCALAR_FIELD_prime⟩
  by_cases hne : p = EtecPoint.infinity
  · subst hne
    exact ⟨EtecPoint.infinity, by rw [EtecPoint.add, if_pos rfl],
      by rw [EtecPoint.double, if_pos rfl]⟩
  · have hz0 : p.z ≠ 0 := etec_valid_z_ne_zero p hv
    have hmz : p.z % JUBJUB_Q ≠ 0 := by rwa [Nat.mod_eq_of_lt hz]
    have hzq : (p.z : Zq) ≠ 0 := qcast_ne_zero _ hmz
    have h0 : (p.t : Zq) * (p.z : Zq) = (p.x : Zq) * (p.y : Zq) := by
      have h0 := congrArg (fun v : ℕ => (v : Zq)) htz
      simpa only [qmul_cast] using h0
    rw [EtecPoint.valid, point_valid_iff] at hv
    simp only [EtecPoint.as_point, qmul_cast, qinv_cast _ hmz] at hv
    have hG : (JUBJUB_A : Zq) * ((p.x : Zq) * p.x) + (p.y : Zq) * p.y
        = (p.z : Zq) * p.z + ((JUBJUB_D : Zq) * p.t) * p.t := by
      apply mul_right_cancel₀
        (mul_ne_zero (mul_ne_zero hzq hzq) (mul_ne_zero hzq hzq))
      field_simp at hv
      linear_combination hv
        - (JUBJUB_D : Zq) * ((p.z : Zq) * p.z)
          * ((p.x : Zq) * p.y + (p.t : Zq) * p.z) * h0
    have hadd : p.add p = some
        ⟨qmul (qsub (qsub (qmul (qadd p.x p.y) (qadd p.x p.y)) (qmul p.x p.x)) (qmul p.y p.y))
           (qsub (qmul p.z p.z) (qmul (qmul JUBJUB_D p.t) p.t)),
         qmul (qadd (qmul p.z p.z) (qmul (qmul JUBJUB_D p.t) p.t))
           (qsub (qmul p.y p.y) (qmul JUBJUB_A (qmul p.x p.x))),
         qmul (qsub (qsub (qmul (qadd p.x p.y) (qadd p.x p.y)) (qmul p.x p.x)) (qmul p.y p.y))
           (qsub (qmul p.y p.y) (qmul JUBJUB_A (qmul p.x p.x))),
         qmul (qsub (qmul p.z p.z) (qmul (qmul JUBJUB_D p.t) p.t))
           (qadd (qmul p.z p.z) (qmul (qmul JUBJUB_D p.t) p.t))⟩ := by
      rw [EtecPoint.add, if_neg hne, if_neg (by push_neg; exact ⟨hz0, hz0⟩)]
    have hdbl : p.double =
        ⟨qmul (qsub (qsub (qmul (qadd p.x p.y) (qadd p.x p.y)) (qmul p.x p.x)) (qmul p.y p.y))
           (qsub (qadd (qmul JUBJUB_A (qmul p.x p.x)) (qmul p.y p.y)) (qmul (qmul p.z p.z) 2)),
         qmul (qadd (qmul JUBJUB_A (qmul p.x p.x)) (qmul p.y p.y))
           (qsub (qmul JUBJUB_A (qmul p.x p.x)) (qmul p.y p.y)),
         qmul (qsub (qsub (qmul (qadd p.x p.y) (qadd p.x p.y)) (qmul p.x p.x)) (qmul p.y p.y))
           (qsub (qmul JUBJUB_A (qmul p.x p.x)) (qmul p.y p.y)),
         qmul (qsub (qadd (qmul JUBJUB_A (qmul p.x p.x)) (qmul p.y p.y)) (qmul (qmul p.z p.z) 2))
           (qadd (qmul JUBJUB_A (qmul p.x p.x)) (qmul p.y p.y))⟩ := by
      rw [EtecPoint.double, if_neg hne]
    refine ⟨_, hadd, ?_⟩
    rw [hdbl]
    apply etec_as_point_scale _ _ (-1 : Zq) (neg_ne_zero.mpr one_ne_zero)
      (qmul_lt _ _) (qmul_lt _ _)
    · dsimp only
      simp only [qmul_cast, qadd_cast, qsub_cast]
      linear_combination (((p.x : Zq) + p.y) * ((p.x : Zq) + p.y)
        - (p.x : Zq) * p.x - (p.y : Zq) * p.y) * hG
    · dsimp only
      simp only [qmul_cast, qadd_cast, qsub_cast]
      linear_combination (-((p.y : Zq) * p.y - (JUBJUB_A : Zq) * ((p.x : Zq) * p.x))) * hG
    · dsimp only
      simp only [qmul_cast, qadd_cast, qsub_cast]
      linear_combination ((JUBJUB_A : Zq) * ((p.x : Zq) * p.x) + (p.y : Zq) * p.y
        - (p.z : Zq) * p.z + ((JUBJUB_D : Zq) * p.t) * p.t) * hG

/-- For a valid projective point, `add(self, self)` lands on the same affine
point as the dedicated doubling formula (the raw tuples differ by the
scaling `-z⁴`). -/
theorem proj_double_eq_add_self (r : ProjPoint) (hz : r.z < JUBJUB_Q)
    (hv : r.valid = some true) : (r.add r).as_point = r.double.as_point := by
  haveI : Fact (Nat.Prime JUBJUB_Q) := ⟨SNARK_SCALAR_FIELD_prime⟩
  by_cases hne : r = ProjPoint.infinity
  · rw [ProjPoint.add, if_pos hne, ProjPoint.double, if_pos hne, hne]
  · have hz0 : r.z ≠ 0 := proj_valid_z_ne_zero r hv
    have hmz : r.z % JUBJUB_Q ≠ 0 := by rwa [Nat.mod_eq_of_lt hz]
    have hzq : (r.z : Zq) ≠ 0 := qcast_ne_zero _ hmz
    rw [ProjPoint.valid, ProjPoint.as_point, if_neg hz0] at hv
    simp only [Option.map_some, Option.map_some', Option.some.injEq,
      point_valid_iff, qmul_cast, qinv_cast _ hmz] at hv
    have hP : ((JUBJUB_A : Zq) * ((r.x : Zq) * r.x) + (r.y : Zq) * r.y) * ((r.z : Zq) * r.z)
        = ((r.z : Zq) * r.z) * ((r.z : Zq) * r.z)
          + (JUBJUB_D : Zq) * ((r.x : Zq) * r.x) * ((r.y : Zq) * r.y) := by
      apply mul_right_cancel₀ (mul_ne_zero hzq hzq)
      field_simp at hv
      linear_combination hv
    have haddc : r.add r =
        ⟨qmul (qmul r.z r.z) (qmul
            (qsub (qmul (qmul r.z r.z) (qmul r.z r.z))
              (qmul JUBJUB_D (qmul (qmul r.x r.x) (qmul r.y r.y))))
            (qsub (qsub (qmul (qadd r.x r.y) (qadd r.x r.y)) (qmul r.x r.x)) (qmul r.y r.y))),
         qmul (qmul r.z r.z) (qmul
            (qadd (qmul (qmul r.z r.z) (qmul r.z r.z))
              (qmul JUBJUB_D (qmul (qmul r.x r.x) (qmul r.y r.y))))
            (qsub (qmul r.y r.y) (qmul JUBJUB_A (qmul r.x r.x)))),
         qmul (qsub (qmul (qmul r.z r.z) (qmul r.z r.z))
              (qmul JUBJUB_D (qmul (qmul r.x r.x) (qmul r.y r.y))))
            (qadd (qmul (qmul r.z r.z) (qmul r.z r.z))
              (qmul JUBJUB_D (qmul (qmul r.x r.x) (qmul r.y r.y))))⟩ := by
      rw [ProjPoint.add, if_neg hne]
    have hdblc : r.double =
        ⟨qmul (qsub (qsub (qmul (qadd r.x r.y) (qadd r.x r.y)) (qmul r.x r.x)) (qmul r.y r.y))
            (qsub (qadd (qmul JUBJUB_A (qmul r.x r.x)) (qmul r.y r.y)) (qmul 2 (qmul r.z r.z))),
         qmul (qadd (qmul JUBJUB_A (qmul r.x r.x)) (qmul r.y r.y))
            (qsub (qmul JUBJUB_A (qmul r.x r.x)) (qmul r.y r.y)),
         qmul (qadd (qmul JUBJUB_A (qmul r.x r.x)) (qmul r.y r.y))
            (qsub (qadd (qmul JUBJUB_A (qmul r.x r.x)) (qmul r.y r.y)) (qmul 2 (qmul r.z r.z)))⟩ := by
      rw [ProjPoint.double, if_neg hne]
    rw [haddc, hdblc]
    apply proj_as_point_scale _ _ (-(((r.z : Zq) * r.z) * ((r.z : Zq) * r.z)))
      (neg_ne_zero.mpr (mul_ne_zero (mul_ne_zero hzq hzq) (mul_ne_zero hzq hzq)))
      (qmul_lt _ _) (qmul_lt _ _)
    · dsimp only
      simp only [qmul_cast, qadd_cast, qsub_cast]
      linear_combination ((((r.x : Zq) + r.y) * ((r.x : Zq) + r.y)
        - (r.x : Zq) * r.x - (r.y : Zq) * r.y) * ((r.z : Zq) * r.z)) * hP
    · dsimp only
      simp only [qmul_cast, qadd_cast, qsub_cast]
      linear_combination (-(((r.y : Zq) * r.y - (JUBJUB_A : Zq) * ((r.x : Zq) * r.x))
        * ((r.z : Zq) * r.z))) * hP
    · dsimp only
      simp only [qmul_cast, qadd_cast, qsub_cast]
      linear_combination (((JUBJUB_A : Zq) * ((r.x : Zq) * r.x) + (r.y : Zq) * r.y)
        * ((r.z : Zq) * r.z) - ((r.z : Zq) * r.z) * ((r.z : Zq) * r.z)
        + (JUBJUB_D : Zq) * ((r.x : Zq) * r.x) * ((r.y : Zq) * r.y)) * hP

theorem inv_Q_unique (a b : ℕ) (ha : a % JUBJUB_Q ≠ 0) (hb : b < JUBJUB_Q)
    (hab : b * a % JUBJUB_Q = 1) : inv a JUBJUB_Q = b :=
  qinv_unique a b ha hb hab

/-! ### The concrete test point -/

theorem point_a_valid : point_a.valid = true := by decide

theorem point_a_etec_valid : point_a.as_etec.valid = true := by
  simp only [point_a, Point.as_etec, EtecPoint.valid, EtecPoint.as_point, qinv_one]
  decide

theorem point_a_proj_valid : point_a.as_proj.valid = some true := by
  simp only [point_a, Point.as_proj, ProjPoint.valid, ProjPoint.as_point, qinv_one]
  norm_num
  decide

/-- Claim C1, counterexample: at the valid extended/projective versions of
the test point `A`, the dedicated doubling formulas do NOT produce results
equal (as coordinate tuples, Python `==`) to `add(self, self)`: the raw
coordinates come out negated (extended) resp. scaled by `-z⁴` (projective),
so only the projected affine points agree. -/
theorem double_add_tuple_counterexample :
    point_a.as_etec.valid = true
    ∧ qmul point_a.as_etec.t point_a.as_etec.z = qmul point_a.as_etec.x point_a.as_etec.y
    ∧ point_a.as_etec.add point_a.as_etec ≠ some point_a.as_etec.double
    ∧ point_a.as_proj.valid = some true
    ∧ point_a.as_proj.add point_a.as_proj ≠ point_a.as_proj.double :=
  ⟨point_a_etec_valid, by decide, by decide, point_a_proj_valid, by decide⟩

/-- Claim C1 (amended): for every valid extended point with reduced
coordinates and consistent `t` (`t*z == x*y`), `add(self, self)` succeeds
and equals `double()` after conversion to affine coordinates; for every
valid projective point with reduced `z`, `add(self, self)` equals
`double()` after conversion to affine coordinates.  (Raw tuple equality
fails in general, see the counterexample.) -/
theorem double_matches_add_after_conversion :
    (∀ p : EtecPoint, p.z < JUBJUB_Q → p.valid = true →
      qmul p.t p.z = qmul p.x p.y →
      ∃ q, p.add p = some q ∧ q.as_point = p.double.as_point)
    ∧ (∀ r : ProjPoint, r.z < JUBJUB_Q → r.valid = some true →
      (r.add r).as_point = r.double.as_point) :=
  ⟨fun p hz hv htz => etec_double_eq_add_self p hz hv htz,
   fun r hz hv => proj_double_eq_add_self r hz hv⟩

theorem double_matches_add_after_conversion_witness :
    (∃ q, point_a.as_etec.add point_a.as_etec = some q
       ∧ q.as_point = point_a.as_etec.double.as_point)
    ∧ (point_a.as_proj.add point_a.as_proj).as_point
        = point_a.as_proj.double.as_point :=
  ⟨double_matches_add_after_conversion.1 _ (by decide) point_a_etec_valid (by decide),
   double_matches_add_after_conversion.2 _ (by decide) point_a_proj_valid⟩

theorem qdiv_eq_of_inv (a b v : ℕ) (h : inv b JUBJUB_Q = v) :
    qdiv a b = a * v % JUBJUB_Q := by rw [qdiv, h]

/-- Claim C2: the concrete doubling scenario.  `A.add(A)` (affine),
`A.as_etec().double()` and `A.as_proj().double()` all equal, after
conversion to affine coordinates, the literal expected point. -/
theorem concrete_double_scenario :
    point_a.add point_a = point_a_double
    ∧ point_a.as_etec.double.as_point = point_a_double
    ∧ point_a.as_proj.double.as_point = some point_a_double := by
  refine ⟨?_, ?_, ?_⟩
  · rw [Point.add, if_neg (by decide),
      show qadd 1 (qmul (qmul (qmul (qmul JUBJUB_D point_a.x) point_a.x) point_a.y)
          point_a.y)
        = 14441540386919254171723775073110099208997819177349303486461268839953177091101
        from by decide,
      show qsub 1 (qmul (qmul (qmul (qmul JUBJUB_D point_a.x) point_a.x) point_a.y)
          point_a.y)
        = 7446702484920021050522630672147175879550545223066730857236935346622631404518
        from by decide,
      qdiv_eq_of_inv _ _ _ (inv_Q_unique
        14441540386919254171723775073110099208997819177349303486461268839953177091101
        7413155747917886164709282498393389464820114291565373912077634889166466888157
        (by decide) (by decide) (by decide)),
      qdiv_eq_of_inv _ _ _ (inv_Q_unique
        7446702484920021050522630672147175879550545223066730857236935346622631404518
        21020400596374946661004378325658099932841373016462266002307610847082676947597
        (by decide) (by decide) (by decide))]
    decide
  · rw [show point_a.as_etec.double =
        (⟨9064911930949078737203586659769322924255014318263786360941036429586693797764,
          5064892486931037245171698714282670666704067570651434852807866240008615373284,
          19262482317128083045794882593487433580019471733941035272054959005332210311471,
          17474336975543148300039401194439484330096033017681973490146015372584379220861⟩
          : EtecPoint) from by decide,
      EtecPoint.as_point,
      show qinv 17474336975543148300039401194439484330096033017681973490146015372584379220861
        = 7671464699692858809389575333231530389717620746402214386505581318451236577740
        from qinv_unique _ _ (by decide) (by decide) (by decide)]
    decide
  · rw [show point_a.as_proj.double =
        (⟨9064911930949078737203586659769322924255014318263786360941036429586693797764,
          5064892486931037245171698714282670666704067570651434852807866240008615373284,
          17474336975543148300039401194439484330096033017681973490146015372584379220861⟩
          : ProjPoint) from by decide,
      ProjPoint.as_point, if_neg (by decide),
      show qinv 17474336975543148300039401194439484330096033017681973490146015372584379220861
        = 7671464699692858809389575333231530389717620746402214386505581318451236577740
        from qinv_unique _ _ (by decide) (by decide) (by decide)]
    decide

/-! ### Identity laws (claim C3) -/

theorem inv_one_Q : inv 1 JUBJUB_Q = 1 :=
  inv_Q_unique 1 1 (by rw [Nat.mod_eq_of_lt one_lt_Q]; omega) one_lt_Q
    (by rw [Nat.mul_one, Nat.mod_eq_of_lt one_lt_Q])

theorem qdiv_one (a : ℕ) (h : a < JUBJUB_Q) : qdiv a 1 = a := by
  rw [qdiv, inv_one_Q, Nat.mul_one, Nat.mod_eq_of_lt h]

/-- Affine identity laws: for a valid point, adding the identity on either
side returns the point unchanged (exactly, as tuples). -/
theorem point_identity_laws (pt : Point) (hx : pt.x < JUBJUB_Q)
    (hy : pt.y < JUBJUB_Q) (hv : pt.valid = true) :
    pt.add Point.infinity = pt ∧ Point.infinity.add pt = pt := by
  obtain ⟨x, y⟩ := pt
  dsimp only at hx hy
  have hne : ¬((Point.mk x y).x = 0 ∧ (Point.mk x y).y = 0) := by
    dsimp only
    rintro ⟨h1, h2⟩
    subst h1; subst h2
    exact absurd hv (by decide)
  constructor
  · rw [Point.add, if_neg hne]
    dsimp only [Point.infinity]
    rw [show qadd (qmul x 1) (qmul y 0) = x from
        q_inj _ _ (qadd_lt _ _) hx (by simp [qadd_cast, qmul_cast]),
      show qadd 1 (qmul (qmul (qmul (qmul JUBJUB_D x) 0) y) 1) = 1 from
        q_inj _ _ (qadd_lt _ _) one_lt_Q (by simp [qadd_cast, qmul_cast]),
      show qsub (qmul y 1) (qmul (qmul JUBJUB_A x) 0) = y from
        q_inj _ _ (qsub_lt _ _) hy (by simp [qsub_cast, qmul_cast]),
      show qsub 1 (qmul (qmul (qmul (qmul JUBJUB_D x) 0) y) 1) = 1 from
        q_inj _ _ (qsub_lt _ _) one_lt_Q (by simp [qsub_cast, qmul_cast]),
      qdiv_one x hx, qdiv_one y hy]
  · rw [Point.add, if_neg (by dsimp only [Point.infinity]; omega)]
    dsimp only [Point.infinity]
    rw [show qadd (qmul 0 y) (qmul 1 x) = x from
        q_inj _ _ (qadd_lt _ _) hx (by simp [qadd_cast, qmul_cast]),
      show qadd 1 (qmul (qmul (qmul (qmul JUBJUB_D 0) x) 1) y) = 1 from
        q_inj _ _ (qadd_lt _ _) one_lt_Q (by simp [qadd_cast, qmul_cast]),
      show qsub (qmul 1 y) (qmul (qmul JUBJUB_A 0) x) = y from
        q_inj _ _ (qsub_lt _ _) hy (by simp [qsub_cast, qmul_cast]),
      show qsub 1 (qmul (qmul (qmul (qmul JUBJUB_D 0) x) 1) y) = 1 from
        q_inj _ _ (qsub_lt _ _) one_lt_Q (by simp [qsub_cast, qmul_cast]),
      qdiv_one x hx, qdiv_one y hy]

/-- Projective identity laws: identity on the left is exact (short-circuit);
identity on the right yields a `z³`-scaled tuple representing the same
affine point. -/
theorem proj_identity_laws (r : ProjPoint) (hz : r.z < JUBJUB_Q)
    (hv : r.valid = some true) :
    ProjPoint.infinity.add r = r
    ∧ (r.add ProjPoint.infinity).as_point = r.as_point := by
  haveI : Fact (Nat.Prime JUBJUB_Q) := ⟨SNARK_SCALAR_FIELD_prime⟩
  refine ⟨by rw [ProjPoint.add, if_pos rfl], ?_⟩
  by_cases hne : r = ProjPoint.infinity
  · rw [ProjPoint.add, if_pos hne, hne]
  · have hz0 : r.z ≠ 0 := proj_valid_z_ne_zero r hv
    have hzq : (r.z : Zq) ≠ 0 := qcast_ne_zero _ (by rwa [Nat.mod_eq_of_lt hz])
    rw [ProjPoint.add, if_neg hne]
    dsimp only [ProjPoint.infinity]
    apply proj_as_point_scale r _ ((r.z : Zq) * (r.z : Zq) * (r.z : Zq))
      (mul_ne_zero (mul_ne_zero hzq hzq) hzq) hz (qmul_lt _ _)
    · dsimp only
      simp only [qmul_cast, qadd_cast, qsub_cast, Nat.cast_zero, Nat.cast_one]
      ring
    · dsimp only
      simp only [qmul_cast, qadd_cast, qsub_cast, Nat.cast_zero, Nat.cast_one]
      ring
    · dsimp only
      simp only [qmul_cast, qadd_cast, qsub_cast, Nat.cast_zero, Nat.cast_one]
      ring

/-- Extended identity laws: identity on the left is exact (short-circuit);
identity on the right yields a `z`-scaled tuple representing the same
affine point. -/
theorem etec_identity_laws (p : EtecPoint) (hz : p.z < JUBJUB_Q)
    (hv : p.valid = true) :
    EtecPoint.infinity.add p = some p
    ∧ ∃ q, p.add EtecPoint.infinity = some q ∧ q.as_point = p.as_point := by
  haveI : Fact (Nat.Prime JUBJUB_Q) := ⟨SNARK_SCALAR_FIELD_prime⟩
  refine ⟨by rw [EtecPoint.add, if_pos rfl], ?_⟩
  by_cases hne : p = EtecPoint.infinity
  · exact ⟨EtecPoint.infinity, by rw [EtecPoint.add, if_pos hne], by rw [hne]⟩
  · have hz0 : p.z ≠ 0 := etec_valid_z_ne_zero p hv
    have hzq : (p.z : Zq) ≠ 0 := qcast_ne_zero _ (by rwa [Nat.mod_eq_of_lt hz])
    have hadd : p.add EtecPoint.infinity = some
        ⟨qmul (qsub (qsub (qmul (qadd p.x p.y) (qadd 0 1)) (qmul p.x 0)) (qmul p.y 1))
           (qsub (qmul p.z 1) (qmul (qmul JUBJUB_D p.t) 0)),
         qmul (qadd (qmul p.z 1) (qmul (qmul JUBJUB_D p.t) 0))
           (qsub (qmul p.y 1) (qmul JUBJUB_A (qmul p.x 0))),
         qmul (qsub (qsub (qmul (qadd p.x p.y) (qadd 0 1)) (qmul p.x 0)) (qmul p.y 1))
           (qsub (qmul p.y 1) (qmul JUBJUB_A (qmul p.x 0))),
         qmul (qsub (qmul p.z 1) (qmul (qmul JUBJUB_D p.t) 0))
           (qadd (qmul p.z 1) (qmul (qmul JUBJUB_D p.t) 0))⟩ := by
      rw [EtecPoint.add, if_neg hne, if_neg (by push_neg; exact ⟨hz0, by decide⟩)]
      rfl
    refine ⟨_, hadd, ?_⟩
    apply etec_as_point_scale p _ ((p.z : Zq)) hzq hz (qmul_lt _ _)
    · dsimp only
      simp only [qmul_cast, qadd_cast, qsub_cast, Nat.cast_zero, Nat.cast_one]
      ring
    · dsimp only
      simp only [qmul_cast, qadd_cast, qsub_cast, Nat.cast_zero, Nat.cast_one]
      ring
    · dsimp only
      simp only [qmul_cast, qadd_cast, qsub_cast, Nat.cast_zero, Nat.cast_one]
      ring

/-- Claim C3, counterexample: for valid projective/extended points with
`z = 2`, adding the representation's identity on the right does NOT return
the point unchanged (the tuple comes back rescaled), so
`p.add(identity) == p` fails for the projective and extended
representations. -/
theorem identity_add_tuple_counterexample :
    ((⟨13666861375760592689313407814054189394883121423953842969780942056901221240919,
       5253178289241426053339137378861746021251607456099848242487569004778194038950,
       2⟩ : ProjPoint).valid = some true
     ∧ (⟨13666861375760592689313407814054189394883121423953842969780942056901221240919,
       5253178289241426053339137378861746021251607456099848242487569004778194038950,
       2⟩ : ProjPoint).add ProjPoint.infinity
       ≠ (⟨13666861375760592689313407814054189394883121423953842969780942056901221240919,
       5253178289241426053339137378861746021251607456099848242487569004778194038950,
       2⟩ : ProjPoint))
    ∧ ((⟨13666861375760592689313407814054189394883121423953842969780942056901221240919,
       5253178289241426053339137378861746021251607456099848242487569004778194038950,
       19248894924845166043969865110164058843881338599112178867225201546866398770055,
       2⟩ : EtecPoint).valid = true
     ∧ (⟨13666861375760592689313407814054189394883121423953842969780942056901221240919,
       5253178289241426053339137378861746021251607456099848242487569004778194038950,
       19248894924845166043969865110164058843881338599112178867225201546866398770055,
       2⟩ : EtecPoint).add EtecPoint.infinity
       ≠ some (⟨13666861375760592689313407814054189394883121423953842969780942056901221240919,
       5253178289241426053339137378861746021251607456099848242487569004778194038950,
       19248894924845166043969865110164058843881338599112178867225201546866398770055,
       2⟩ : EtecPoint)) := by
  have h2 : qinv 2
      = 10944121435919637611123202872628637544274182200208017171849102093287904247809 :=
    qinv_unique _ _ (by decide) (by decide) (by decide)
  refine ⟨⟨?_, by decide⟩, ⟨?_, by decide⟩⟩
  · rw [ProjPoint.valid, ProjPoint.as_point, if_neg (by decide)]
    dsimp only
    rw [h2]
    decide
  · rw [EtecPoint.valid, EtecPoint.as_point]
    dsimp only
    rw [h2]
    decide

/-- Claim C3 (amended): the identity element is an exact (tuple-level)
two-sided identity for affine addition; for the projective and extended
representations `identity.add(p) == p` holds exactly (identity
short-circuit), while `p.add(identity)` returns a rescaled tuple that is
only equal to `p` after conversion to affine coordinates. -/
theorem identity_laws :
    (∀ pt : Point, pt.x < JUBJUB_Q → pt.y < JUBJUB_Q → pt.valid = true →
      pt.add Point.infinity = pt ∧ Point.infinity.add pt = pt)
    ∧ (∀ r : ProjPoint, r.z < JUBJUB_Q → r.valid = some true →
      ProjPoint.infinity.add r = r
      ∧ (r.add ProjPoint.infinity).as_point = r.as_point)
    ∧ (∀ p : EtecPoint, p.z < JUBJUB_Q → p.valid = true →
      EtecPoint.infinity.add p = some p
      ∧ ∃ q, p.add EtecPoint.infinity = some q ∧ q.as_point = p.as_point) :=
  ⟨point_identity_laws, proj_identity_laws, etec_identity_laws⟩

theorem identity_laws_witness :
    (point_a.add Point.infinity = point_a ∧ Point.infinity.add point_a = point_a)
    ∧ (ProjPoint.infinity.add point_a.as_proj = point_a.as_proj
       ∧ (point_a.as_proj.add ProjPoint.infinity).as_point = point_a.as_proj.as_point)
    ∧ (EtecPoint.infinity.add point_a.as_etec = some point_a.as_etec
       ∧ ∃ q, point_a.as_etec.add EtecPoint.infinity = some q
          ∧ q.as_point = point_a.as_etec.as_point) :=
  ⟨identity_laws.1 point_a (by decide) (by decide) point_a_valid,
   identity_laws.2.1 point_a.as_proj (by decide) point_a_proj_valid,
   identity_laws.2.2 point_a.as_etec (by decide) point_a_etec_valid⟩

/-! ### Field-element claims -/

/-- Claim C4 (documenting the code bug): `exp`/`powmod` with exponent `0`
does not return 1 — it fails (the source computes `math.log(0, 2)`, which
raises `ValueError`), for every field element. -/
theorem exp_zero_raises :
    (∀ a : FQ, a.exp 0 = none)
    ∧ powmod 5 0 SNARK_SCALAR_FIELD = none :=
  ⟨fun _ => rfl, rfl⟩

theorem inv_lt_mod (a n : ℕ) (hn : 0 < n) : inv a n < n := by
  by_cases ha : a = 0
  · rw [ha, inv, if_pos rfl]
    exact hn
  · rw [inv, if_neg ha]
    have hz : ((n : ℕ) : ℤ) ≠ 0 := by exact_mod_cast (by omega : n ≠ 0)
    have h1 := Int.emod_nonneg (inv_loop 1 0 (a % n) n) hz
    have h2 := Int.emod_lt_of_pos (inv_loop 1 0 (a % n) n)
      (by exact_mod_cast hn : (0 : ℤ) < (n : ℤ))
    omega

theorem powmodGo_lt (a b n : ℕ) (hn : 0 < n) :
    ∀ (k f : ℕ), powmodGo a b n f k < n := by
  intro k
  induction k with
  | zero =>
    intro f
    rw [powmodGo]
    split <;> exact Nat.mod_lt _ hn
  | succ k ih =>
    intro f
    rw [powmodGo]
    exact ih _

/-- Claim C5, counterexample: construction does NOT always reduce into
`[0, modulus)`: the `isinstance` branch of `FQ.__init__` copies the stored
value of an `FQ` argument verbatim, so `FQ(FQ(5, 7), 3)` stores value `5`
with modulus `3`, violating `0 ≤ value < modulus`. -/
theorem fq_init_unreduced_counterexample :
    (FQ.init (FQInit.fq ⟨5, 7⟩) 3).n = 5
    ∧ (FQ.init (FQInit.fq ⟨5, 7⟩) 3).m = 3
    ∧ ¬((FQ.init (FQInit.fq ⟨5, 7⟩) 3).n < (FQ.init (FQInit.fq ⟨5, 7⟩) 3).m) :=
  ⟨rfl, rfl, by decide⟩

/-- Claim C5 (amended): construction from a plain integer input reduces
into `[0, modulus)`, construction from an `FQ` input copies that instance's
stored value verbatim (no reduction), and every arithmetic operation
returns a value in `[0, modulus)` (for a positive modulus; results of
fallible operations are constrained whenever they return at all). -/
theorem fq_range_invariant :
    (∀ (v : ℤ) (m : ℕ), 0 < m →
      (FQ.init (FQInit.int v) m).n < (FQ.init (FQInit.int v) m).m)
    ∧ (∀ (f : FQ) (m : ℕ),
      (FQ.init (FQInit.fq f) m).n = f.n ∧ (FQ.init (FQInit.fq f) m).m = m)
    ∧ (∀ a b : FQ, 0 < a.m → ∀ r, a.add b = some r → r.n < r.m)
    ∧ (∀ a b : FQ, 0 < a.m → ∀ r, a.sub b = some r → r.n < r.m)
    ∧ (∀ a b : FQ, 0 < a.m → ∀ r, a.mul b = some r → r.n < r.m)
    ∧ (∀ a : FQ, 0 < a.m → a.neg.n < a.neg.m)
    ∧ (∀ a : FQ, 0 < a.m → a.inverse.n < a.inverse.m)
    ∧ (∀ a : FQ, 0 < a.m → ∀ e r, a.exp e = some r → r.n < r.m)
    ∧ (∀ a b : FQ, 0 < a.m → ∀ r, a.div b = some r → r.n < r.m) := by
  have hmake : ∀ (v : ℤ) (m : ℕ), 0 < m →
      (FQ.init (FQInit.int v) m).n < (FQ.init (FQInit.int v) m).m := by
    intro v m hm
    dsimp only [FQ.init]
    have hz : ((m : ℕ) : ℤ) ≠ 0 := by exact_mod_cast (by omega : m ≠ 0)
    have h1 := Int.emod_nonneg v hz
    have h2 := Int.emod_lt_of_pos v (by exact_mod_cast hm : (0 : ℤ) < (m : ℤ))
    omega
  refine ⟨hmake, fun f m => ⟨rfl, rfl⟩, ?_, ?_, ?_, ?_, ?_, ?_, ?_⟩
  · intro a b hm r hr
    rw [FQ.add, FQ.other_n] at hr
    by_cases h : b.m = a.m
    · rw [if_pos h] at hr
      simp only [Option.map_some', Option.some.injEq] at hr
      subst hr
      exact Nat.mod_lt _ hm
    · rw [if_neg h] at hr
      exact absurd hr (by simp)
  · intro a b hm r hr
    rw [FQ.sub, FQ.other_n] at hr
    by_cases h : b.m = a.m
    · rw [if_pos h] at hr
      simp only [Option.map_some', Option.some.injEq] at hr
      subst hr
      dsimp only
      have hz : ((a.m : ℕ) : ℤ) ≠ 0 := by exact_mod_cast (by omega : a.m ≠ 0)
      have h1 := Int.emod_nonneg ((a.n : ℤ) - (b.n : ℤ)) hz
      have h2 := Int.emod_lt_of_pos ((a.n : ℤ) - (b.n : ℤ))
        (by exact_mod_cast hm : (0 : ℤ) < (a.m : ℤ))
      omega
    · rw [if_neg h] at hr
      exact absurd hr (by simp)
  · intro a b hm r hr
    rw [FQ.mul, FQ.other_n] at hr
    by_cases h : b.m = a.m
    · rw [if_pos h] at hr
      simp only [Option.map_some', Option.some.injEq] at hr
      subst hr
      exact Nat.mod_lt _ hm
    · rw [if_neg h] at hr
      exact absurd hr (by simp)
  · intro a hm
    exact hmake _ _ hm
  · intro a hm
    dsimp only [FQ.inverse]
    exact inv_lt_mod _ _ hm
  · intro a hm e r hr
    rw [FQ.exp, powmod] at hr
    by_cases he : e = 0
    · rw [if_pos he] at hr
      exact absurd hr (by simp)
    · rw [if_neg he] at hr
      simp only [Option.map_some', Option.some.injEq] at hr
      subst hr
      exact powmodGo_lt _ _ _ hm _ _
  · intro a b hm r hr
    rw [FQ.div, FQ.other_n] at hr
    by_cases h : b.m = a.m
    · rw [if_pos h] at hr
      simp only [Option.map_some', Option.some.injEq] at hr
      subst hr
      exact Nat.mod_lt _ hm
    · rw [if_neg h] at hr
      exact absurd hr (by simp)

theorem fq_range_invariant_witness :
    (0 < (7 : ℕ)
      ∧ (FQ.init (FQInit.int (-5)) 7).n < (FQ.init (FQInit.int (-5)) 7).m)
    ∧ ((FQ.init (FQInit.fq ⟨5, 7⟩) 3).n = (⟨5, 7⟩ : FQ).n
      ∧ (FQ.init (FQInit.fq ⟨5, 7⟩) 3).m = 3)
    ∧ ((⟨3, 7⟩ : FQ).neg.n < (⟨3, 7⟩ : FQ).neg.m)
    ∧ ((⟨3, 7⟩ : FQ).inverse.n < (⟨3, 7⟩ : FQ).inverse.m)
    ∧ (∀ r : FQ, (⟨3, 7⟩ : FQ).add ⟨5, 7⟩ = some r → r.n < r.m)
    ∧ (∀ r : FQ, (⟨3, 7⟩ : FQ).sub ⟨5, 7⟩ = some r → r.n < r.m)
    ∧ (∀ r : FQ, (⟨3, 7⟩ : FQ).mul ⟨5, 7⟩ = some r → r.n < r.m)
    ∧ (∀ r : FQ, (⟨3, 7⟩ : FQ).div ⟨5, 7⟩ = some r → r.n < r.m)
    ∧ (∀ r : FQ, (⟨3, 7⟩ : FQ).exp 1 = some r → r.n < r.m) :=
  ⟨⟨by decide, fq_range_invariant.1 (-5) 7 (by decide)⟩,
   fq_range_invariant.2.1 ⟨5, 7⟩ 3,
   fq_range_invariant.2.2.2.2.2.1 ⟨3, 7⟩ (by decide),
   fq_range_invariant.2.2.2.2.2.2.1 ⟨3, 7⟩ (by decide),
   fun r => fq_range_invariant.2.2.1 ⟨3, 7⟩ ⟨5, 7⟩ (by decide) r,
   fun r => fq_range_invariant.2.2.2.1 ⟨3, 7⟩ ⟨5, 7⟩ (by decide) r,
   fun r => fq_range_invariant.2.2.2.2.1 ⟨3, 7⟩ ⟨5, 7⟩ (by decide) r,
   fun r => fq_range_invariant.2.2.2.2.2.2.2.2 ⟨3, 7⟩ ⟨5, 7⟩ (by decide) r,
   fun r => fq_range_invariant.2.2.2.2.2.2.2.1 ⟨3, 7⟩ (by decide) 1 r⟩

/-- Claim C7: the affine `add` returns `other` unchanged whenever `self` is
the all-zero tuple `(0, 0)` (which is not the identity `(0, 1)`), and
applies the generic unified formula for every other `self`. -/
theorem affine_add_special_case :
    (∀ other : Point, (Point.mk 0 0).add other = other)
    ∧ (∀ self other : Point, ¬(self.x = 0 ∧ self.y = 0) →
        self.add other = affineAddFormula self other) := by
  constructor
  · intro other
    rw [Point.add, if_pos ⟨rfl, rfl⟩]
  · intro self other h
    rw [Point.add, if_neg h, affineAddFormula]

theorem affine_add_special_case_witness :
    ((Point.mk 0 0).add point_a = point_a)
    ∧ point_a.add Point.infinity = affineAddFormula point_a Point.infinity :=
  ⟨affine_add_special_case.1 point_a,
   affine_add_special_case.2 point_a Point.infinity (by decide)⟩

/-- Claim C8: inverting the zero field element yields zero (the
`DivisionByZeroDegenerate` quirk), and for every nonzero reduced element
the extended-Euclid `inv` returns the unique multiplicative inverse. -/
theorem inverse_zero_quirk_and_correctness :
    (FQ.mk 0 SNARK_SCALAR_FIELD).inverse = FQ.mk 0 SNARK_SCALAR_FIELD
    ∧ ∀ a : ℕ, 0 < a → a < JUBJUB_Q →
        inv a JUBJUB_Q * a % JUBJUB_Q = 1
        ∧ inv a JUBJUB_Q < JUBJUB_Q
        ∧ ∀ b, b < JUBJUB_Q → a * b % JUBJUB_Q = 1 → b = inv a JUBJUB_Q := by
  refine ⟨rfl, fun a h0 hlt => ?_⟩
  have ha : a % JUBJUB_Q ≠ 0 := by rw [Nat.mod_eq_of_lt hlt]; omega
  obtain ⟨h1, h2⟩ := qinv_mul a ha
  exact ⟨h1, h2, fun b hb hab =>
    (qinv_unique a b ha hb (by rwa [Nat.mul_comm] at hab)).symm⟩

theorem inverse_zero_quirk_and_correctness_witness :
    (0 < 2 ∧ 2 < JUBJUB_Q)
    ∧ inv 2 JUBJUB_Q * 2 % JUBJUB_Q = 1
    ∧ inv 2 JUBJUB_Q < JUBJUB_Q
    ∧ ∀ b, b < JUBJUB_Q → 2 * b % JUBJUB_Q = 1 → b = inv 2 JUBJUB_Q :=
  ⟨⟨by decide, by decide⟩,
   (inverse_zero_quirk_and_correctness.2 2 (by decide) (by decide)).1,
   (inverse_zero_quirk_and_correctness.2 2 (by decide) (by decide)).2.1,
   (inverse_zero_quirk_and_correctness.2 2 (by decide) (by decide)).2.2⟩

/-- Claim C10: converting an extended point with `Z = 0` to affine silently
yields `(0, 0)` (because `inv 0 = 0`), while the projective conversion
rejects `Z = 0` with an assertion error. -/
theorem zero_z_projection_mismatch :
    (∀ x y t : ℕ, (EtecPoint.mk x y t 0).as_point = Point.mk 0 0)
    ∧ (∀ x y : ℕ, (ProjPoint.mk x y 0).as_point = none) := by
  constructor
  · intro x y t
    exact etec_as_point_z_zero _ rfl
  · intro x y
    rw [ProjPoint.as_point, if_pos rfl]

/-! ### Scalar multiplication loop claims -/

theorem multLoop_terminates {α : Type} (addf : α → α → α) (dblf : α → α) :
    ∀ (fuel : ℕ) (s : ℤ), 0 ≤ s → s < 2 ^ fuel → ∀ (p acc : α),
      ∃ r, multLoop addf dblf fuel s p acc = some r := by
  intro fuel
  induction fuel with
  | zero =>
    intro s h0 h1 p acc
    have hs : s = 0 := by
      have h2 : (2 : ℤ) ^ 0 = 1 := pow_zero 2
      omega
    subst hs
    exact ⟨acc, by rw [multLoop, if_pos rfl]⟩
  | succ f ih =>
    intro s h0 h1 p acc
    by_cases hs : s = 0
    · subst hs
      exact ⟨acc, by rw [multLoop, if_pos rfl]⟩
    · have hpow : (2 : ℤ) ^ (f + 1) = 2 * 2 ^ f := by ring
      have hd0 : 0 ≤ s / 2 := by omega
      have hdlt : s / 2 < 2 ^ f := by omega
      obtain ⟨r, hr⟩ := ih (s / 2) hd0 hdlt (dblf p)
        (if s % 2 ≠ 0 then addf acc p else acc)
      exact ⟨r, by rw [multLoop, if_neg hs]; exact hr⟩

theorem multLoop_negative {α : Type} (addf : α → α → α) (dblf : α → α) :
    ∀ (fuel : ℕ) (s : ℤ), s < 0 → ∀ (p acc : α),
      multLoop addf dblf fuel s p acc = none := by
  intro fuel
  induction fuel with
  | zero =>
    intro s hneg p acc
    rw [multLoop, if_neg (by omega)]
  | succ f ih =>
    intro s hneg p acc
    rw [multLoop, if_neg (by omega)]
    exact ih _ (by omega) _ _

/-- Claim C6: the double-and-add loop of `mult`, given a plain integer
scalar, terminates exactly on the non-negative scalars: a non-negative
scalar halves (floor division) down to 0, while a negative scalar stays
negative forever (`-1 // 2 == -1` in Python), so the `while scalar != 0`
loop runs out of any finite fuel. -/
theorem mult_int_termination :
    ∀ (α : Type) (addf : α → α → α) (dblf : α → α) (inf0 self : α) (s : ℤ),
      (0 ≤ s →
        ∃ fuel r, mult addf dblf inf0 self fuel (CurveScalar.int s) = MultResult.ok r)
      ∧ (s < 0 →
        ∀ fuel : ℕ, mult addf dblf inf0 self fuel (CurveScalar.int s)
          = MultResult.fuelOut) := by
  intro α addf dblf inf0 self s
  constructor
  · intro h0
    have hf : s < 2 ^ s.toNat := by
      have h1 : s = ((s.toNat : ℕ) : ℤ) := (Int.toNat_of_nonneg h0).symm
      rw [h1]
      exact_mod_cast Nat.lt_two_pow s.toNat
    obtain ⟨r, hr⟩ := multLoop_terminates addf dblf s.toNat s h0 hf self inf0
    refine ⟨s.toNat, r, ?_⟩
    simp only [mult]
    rw [hr]
  · intro hneg fuel
    simp only [mult]
    rw [multLoop_negative addf dblf fuel s hneg self inf0]

theorem mult_int_termination_witness :
    (∃ fuel r, mult (fun a b : ℕ => a + b) (fun a => a) 0 1 fuel (CurveScalar.int 5)
      = MultResult.ok r)
    ∧ mult (fun a b : ℕ => a + b) (fun a => a) 0 1 7 (CurveScalar.int (-3))
      = MultResult.fuelOut :=
  ⟨(mult_int_termination ℕ _ _ 0 1 5).1 (by decide),
   (mult_int_termination ℕ _ _ 0 1 (-3)).2 (by decide) 7⟩

/-- Claim C9: `mult` accepts a plain integer, or an `FQ` scalar whose
modulus is one of `SNARK_SCALAR_FIELD`, `JUBJUB_ORDER`, `JUBJUB_L` (its
integer value is then used), and raises `ValueError` for every `FQ` scalar
with any other modulus. -/
theorem mult_scalar_domain :
    (∀ (α : Type) (addf : α → α → α) (dblf : α → α) (inf0 self : α) (fuel : ℕ) (f : FQ),
      (f.m = SNARK_SCALAR_FIELD ∨ f.m = JUBJUB_ORDER ∨ f.m = JUBJUB_L) →
      mult addf dblf inf0 self fuel (CurveScalar.fq f)
        = mult addf dblf inf0 self fuel (CurveScalar.int (f.n : ℤ)))
    ∧ (∀ (α : Type) (addf : α → α → α) (dblf : α → α) (inf0 self : α) (fuel : ℕ) (f : FQ),
      ¬(f.m = SNARK_SCALAR_FIELD ∨ f.m = JUBJUB_ORDER ∨ f.m = JUBJUB_L) →
      mult addf dblf inf0 self fuel (CurveScalar.fq f) = MultResult.error) := by
  constructor
  · intro α addf dblf inf0 self fuel f h
    simp only [mult]
    rw [if_pos h]
  · intro α addf dblf inf0 self fuel f h
    simp only [mult]
    rw [if_neg h]

theorem mult_scalar_domain_witness :
    (mult (fun a b : ℕ => a + b) (fun a => a) 0 1 3 (CurveScalar.fq ⟨3, JUBJUB_L⟩)
      = mult (fun a b : ℕ => a + b) (fun a => a) 0 1 3 (CurveScalar.int ((3 : ℕ) : ℤ)))
    ∧ mult (fun a b : ℕ => a + b) (fun a => a) 0 1 3 (CurveScalar.fq ⟨3, 7⟩)
      = MultResult.error :=
  ⟨mult_scalar_domain.1 ℕ _ _ 0 1 3 ⟨3, JUBJUB_L⟩ (by decide),
   mult_scalar_domain.2 ℕ _ _ 0 1 3 ⟨3, 7⟩ (by decide)⟩
